import Mathlib

/-!
Shallow embedding of `src/request.go` (package client of jbpratt78/golark):
a builder/executor for read queries against a resource-oriented HTTP API.

Modelling conventions:
* Go `map[string]T` becomes an association list `List (String × T)`;
  the list order models the (unspecified) iteration order of a Go map,
  and `mapInsert` models `m[k] = v` (overwrite in place, append if new).
* Go `net/url.Values` (`map[string][]string`) becomes
  `List (String × List String)` with `Values.add` modelling `Values.Add`
  (append to the value slice) and `Values.encode` modelling
  `Values.Encode` (keys sorted, each value percent-encoded).
* `context.Context` becomes the inductive `Ctx`; a possibly-nil context
  argument is `Option Ctx`, and a Go `panic` is modelled as `Except.error`.
* `Execute` takes the transport (`http.NewRequestWithContext` +
  `http.DefaultClient.Do`) and the JSON decoder as explicit function
  arguments; `url.Parse` of the assembled string is a standard-library
  boundary and is modelled as the assembled string itself.
-/

namespace Golark

/-- Go `net/url.Values`: a map from key to a list of values. -/
abbrev Values := List (String × List String)

/-- Go `url.Values.Add(key, value)`: `v[key] = append(v[key], value)`.
A fresh key is placed at the end of the association list. -/
def Values.add (v : Values) (key value : String) : Values :=
  match v with
  | [] => [(key, [value])]
  | (k, vs) :: rest =>
    if k = key then (k, vs ++ [value]) :: rest
    else (k, vs) :: Values.add rest key value

/-- Go `v[key]` on a `url.Values`: the value slice, `[]` when absent. -/
def Values.get (v : Values) (key : String) : List String :=
  match v with
  | [] => []
  | (k, vs) :: rest => if k = key then vs else Values.get rest key

/-- UTF-8 byte sequence of a code point, as Go ranges over the bytes of a
string when escaping. -/
def utf8Bytes (n : Nat) : List Nat :=
  if n < 0x80 then [n]
  else if n < 0x800 then [0xC0 + n / 64, 0x80 + n % 64]
  else if n < 0x10000 then
    [0xE0 + n / 4096, 0x80 + (n / 64) % 64, 0x80 + n % 64]
  else
    [0xF0 + n / 0x40000, 0x80 + (n / 4096) % 64, 0x80 + (n / 64) % 64,
      0x80 + n % 64]

/-- Upper-case hexadecimal digit, as in Go `net/url` `upperhex`. -/
def hexUpper (n : Nat) : Char :=
  if n < 10 then Char.ofNat (48 + n) else Char.ofNat (55 + n)

/-- Go `url.shouldEscape(c, encodeQueryComponent)`: alphanumerics and
`-`, `_`, `.`, `~` stay, every other byte is escaped. -/
def shouldEscapeQuery (b : Nat) : Bool :=
  !((65 ≤ b && b ≤ 90) || (97 ≤ b && b ≤ 122) || (48 ≤ b && b ≤ 57) ||
    b == 45 || b == 95 || b == 46 || b == 126)

/-- One byte of Go `url.QueryEscape`: space becomes `+`, an escaped byte
becomes `%XX` with upper-case hex, anything else passes through. -/
def escapeByte (b : Nat) : List Char :=
  if b = 32 then ['+']
  else if shouldEscapeQuery b then ['%', hexUpper (b / 16), hexUpper (b % 16)]
  else [Char.ofNat b]

/-- Go `url.QueryEscape`: escape every byte of the UTF-8 encoding. -/
def queryEscape (s : String) : String :=
  ⟨(s.data.flatMap (fun c => utf8Bytes c.toNat)).flatMap escapeByte⟩

/-- Key order used by Go `url.Values.Encode` (`sort.Strings` on the keys;
byte-wise order on UTF-8 strings coincides with code-point order). -/
def keyLE (p q : String × List String) : Prop := p.1 ≤ q.1

instance : DecidableRel keyLE := fun p q =>
  inferInstanceAs (Decidable (p.1 ≤ q.1))

instance : IsTotal (String × List String) keyLE :=
  ⟨fun p q => le_total p.1 q.1⟩

instance : IsTrans (String × List String) keyLE :=
  ⟨fun _ _ _ h1 h2 => le_trans h1 h2⟩

/-- Join with `&`, as the builder loop of Go `url.Values.Encode` does. -/
def joinAmp : List String → String
  | [] => ""
  | [s] => s
  | s :: t :: rest => s ++ "&" ++ joinAmp (t :: rest)

/-- Go `url.Values.Encode`: sort the keys, then for each key emit
`escapedKey=escapedValue` for every value of that key, joined by `&`. -/
def Values.encode (v : Values) : String :=
  joinAmp ((List.insertionSort keyLE v).flatMap
    (fun p => p.2.map (fun x => queryEscape p.1 ++ "=" ++ queryEscape x)))

/-- The `Field` collaborator (`name`, inclusion and expansion flags). -/
structure Field where
  Name : String
  IsIncluded : Bool
  IsExpanded : Bool
  deriving DecidableEq, Repr

/-- The `Filter` collaborator: optional comparison-operator suffix `c`
(empty means equality) and a `value` string. -/
structure Filter where
  c : String
  value : String
  deriving DecidableEq, Repr

/-- `context.Context`; `background` is `context.Background()`. -/
inductive Ctx where
  | background
  | custom (label : String)
  deriving DecidableEq, Repr

/-- Go `m[k] = v` on a `map[string]T` modelled as an association list:
overwrite in place when the key exists, append otherwise. -/
def mapInsert {α : Type} : List (String × α) → String → α → List (String × α)
  | [], k, v => [(k, v)]
  | (k0, v0) :: rest, k, v =>
    if k0 = k then (k, v) :: rest else (k0, v0) :: mapInsert rest k v

/-- Go map lookup `m[k]` returning `none` when the key is absent. -/
def mapLookup {α : Type} : List (String × α) → String → Option α
  | [], _ => none
  | (k0, v0) :: rest, k => if k0 = k then some v0 else mapLookup rest k

/-- `Request` of `src/request.go`: a Skylark API request. -/
structure Request where
  Endpoint : String
  Collection : String
  ID : String
  Fields : List (String × Field)
  ctx : Ctx
  additionalFields : List (String × String)
  deriving DecidableEq, Repr

/-- `NewRequest(endpoint, collection, id)`. -/
def NewRequest (endpoint collection id : String) : Request :=
  { Endpoint := endpoint, Collection := collection, ID := id,
    Fields := [], ctx := Ctx.background, additionalFields := [] }

/-- `AddField`: `r.Fields[f.Name] = f`, returning the request. -/
def Request.AddField (r : Request) (f : Field) : Request :=
  { r with Fields := mapInsert r.Fields f.Name f }

/-- Modelled from the spec: the `Field` collaborator and its operation
"contribute to query parameters" live outside the file set of this
repository; per the spec a field contributes by "adding the field to a
fields= or expand= style parameter". An included field appends its name
under key "fields", an expanded field under key "expand". -/
def Field.apply (f : Field) (v : Values) : Values :=
  let v := if f.IsIncluded then v.add "fields" f.Name else v
  if f.IsExpanded then v.add "expand" f.Name else v

/-- `QueryParams`: fold every field contribution over an empty `Values`,
then `Add` every additional (auxiliary) parameter. -/
def Request.QueryParams (r : Request) : Values :=
  let v : Values := []
  let v := r.Fields.foldl (fun v p => p.2.apply v) v
  r.additionalFields.foldl (fun v p => v.add p.1 p.2) v

/-- `ToURL`: `endpoint + collection + "/"`, then `id + "/"` when the id is
non-empty, then `"?" + Encode(QueryParams)` when that encoding is
non-empty. The final `url.Parse` round-trip is a standard-library
boundary; the model returns the assembled string. -/
def Request.ToURL (r : Request) : String :=
  let temp := r.Endpoint ++ r.Collection ++ "/"
  let temp := if r.ID ≠ "" then temp ++ r.ID ++ "/" else temp
  let queryParams := r.QueryParams.encode
  if queryParams ≠ "" then temp ++ "?" ++ queryParams else temp

/-- `WithContext`: replaces the context; a Go `panic("nil context")` on a
nil argument is modelled as `Except.error "nil context"`. -/
def Request.WithContext (r : Request) (ctx : Option Ctx) :
    Except String Request :=
  match ctx with
  | none => Except.error "nil context"
  | some c => Except.ok { r with ctx := c }

/-- `OrderBy`: `r.additionalFields["order"] = f.Name`. -/
def Request.OrderBy (r : Request) (f : Field) : Request :=
  { r with additionalFields := mapInsert r.additionalFields "order" f.Name }

/-- `WithFilter`: key is `fieldName__c` when the suffix `c` is non-empty,
else the bare `fieldName`; stores the value of the filter under it. -/
def Request.WithFilter (r : Request) (fieldName : String) (filter : Filter) :
    Request :=
  let fieldName :=
    if filter.c ≠ "" then fieldName ++ "__" ++ filter.c else fieldName
  { r with additionalFields :=
      mapInsert r.additionalFields fieldName filter.value }

/-- `Expand`: set `f.IsExpanded = true`, `f.IsIncluded = false`, then
`AddField`. Go mutates the pointed-to field, so the model returns the
updated request together with the updated field value. -/
def Request.Expand (r : Request) (f : Field) : Request × Field :=
  let f := { f with IsExpanded := true, IsIncluded := false }
  (r.AddField f, f)

/-- An HTTP response as `Execute` consumes it: the status code, and the
body as the outcome of reading it to the end (`Except.error` when the
read fails, otherwise the full text). -/
structure Response where
  StatusCode : Int
  Body : Except String String

/-- `Execute`: build the URL, perform the GET bound to the context
(`doGet` models `http.NewRequestWithContext` + `http.DefaultClient.Do`),
then: on a status outside [200, 300) read the body and fail with exactly
its text, wrapping a failed read as
`"Unable to read error message from server: " ++ e`; on success decode
the body into the destination (`decode` models
`json.NewDecoder(res.Body).Decode(v)`, returning its error status and
the possibly-updated destination). The returned pair is (result, final
destination value). -/
def Request.Execute {α : Type} (r : Request)
    (doGet : Ctx → String → Except String Response)
    (decode : String → α → Except String Unit × α)
    (v : α) : Except String Unit × α :=
  match doGet r.ctx r.ToURL with
  | Except.error e => (Except.error e, v)
  | Except.ok res =>
    if res.StatusCode < 200 ∨ 300 ≤ res.StatusCode then
      match res.Body with
      | Except.error e =>
        (Except.error ("Unable to read error message from server: " ++ e), v)
      | Except.ok message => (Except.error message, v)
    else
      match res.Body with
      | Except.error e => (Except.error e, v)
      | Except.ok body => decode body v

/-! ### Association-list (Go map) lemmas -/

theorem mapLookup_mapInsert_self {α : Type} (l : List (String × α))
    (k : String) (v : α) : mapLookup (mapInsert l k v) k = some v := by
  induction l with
  | nil => simp [mapInsert, mapLookup]
  | cons p rest ih =>
    obtain ⟨k0, v0⟩ := p
    by_cases h : k0 = k
    · simp [mapInsert, mapLookup, h]
    · simp [mapInsert, mapLookup, h, ih]

theorem keys_mapInsert {α : Type} (l : List (String × α)) (k : String)
    (v : α) :
    (mapInsert l k v).map Prod.fst =
      if k ∈ l.map Prod.fst then l.map Prod.fst
      else l.map Prod.fst ++ [k] := by
  induction l with
  | nil => simp [mapInsert]
  | cons p rest ih =>
    obtain ⟨k0, v0⟩ := p
    by_cases h0 : k0 = k
    · subst h0; simp [mapInsert]
    · have hk0 : ¬k = k0 := fun h => h0 h.symm
      simp only [mapInsert, if_neg h0, List.map_cons, ih, List.mem_cons]
      by_cases hk : k ∈ rest.map Prod.fst
      · simp [hk, hk0]
      · simp [hk, hk0]

theorem nodup_keys_mapInsert {α : Type} (l : List (String × α))
    (k : String) (v : α) (h : (l.map Prod.fst).Nodup) :
    ((mapInsert l k v).map Prod.fst).Nodup := by
  rw [keys_mapInsert]
  by_cases hk : k ∈ l.map Prod.fst
  · simpa [hk] using h
  · simp [hk, List.nodup_append, h]

theorem count_keys_mapInsert {α : Type} (l : List (String × α))
    (k : String) (v : α) (h : (l.map Prod.fst).Nodup) :
    ((mapInsert l k v).map Prod.fst).count k = 1 := by
  rw [keys_mapInsert]
  by_cases hk : k ∈ l.map Prod.fst
  · simpa [hk] using List.count_eq_one_of_mem h hk
  · simp [hk, List.count_append, List.count_eq_zero_of_not_mem hk]

/-! ### Values lemmas -/

theorem Values.get_add_self (v : Values) (k val : String) :
    (v.add k val).get k = v.get k ++ [val] := by
  induction v with
  | nil => simp [Values.add, Values.get]
  | cons p rest ih =>
    obtain ⟨k0, vs0⟩ := p
    by_cases h0 : k0 = k
    · simp [Values.add, Values.get, h0]
    · simp [Values.add, Values.get, h0, ih]

theorem Values.get_add_other (v : Values) (k k2 val : String) (h : k2 ≠ k) :
    (v.add k val).get k2 = v.get k2 := by
  induction v with
  | nil => simp [Values.add, Values.get, Ne.symm h]
  | cons p rest ih =>
    obtain ⟨k0, vs0⟩ := p
    by_cases h0 : k0 = k
    · subst h0; simp [Values.add, Values.get, Ne.symm h]
    · by_cases h2 : k0 = k2
      · simp [Values.add, Values.get, h0, h2, h]
      · simp [Values.add, Values.get, h0, h2, ih]

theorem get_foldl_add_not_mem (l : List (String × String)) (v0 : Values)
    (k : String) (h : k ∉ l.map Prod.fst) :
    (l.foldl (fun v p => v.add p.1 p.2) v0).get k = v0.get k := by
  induction l generalizing v0 with
  | nil => rfl
  | cons p rest ih =>
    obtain ⟨k0, val0⟩ := p
    simp only [List.map_cons, List.mem_cons, not_or] at h
    rw [List.foldl_cons, ih _ h.2, Values.get_add_other _ _ _ _ h.1]

theorem get_foldl_add_mem (l : List (String × String)) (v0 : Values)
    (k val : String) (hnd : (l.map Prod.fst).Nodup)
    (hmem : (k, val) ∈ l) :
    (l.foldl (fun v p => v.add p.1 p.2) v0).get k = v0.get k ++ [val] := by
  induction l generalizing v0 with
  | nil => exact absurd hmem (List.not_mem_nil _)
  | cons p rest ih =>
    obtain ⟨k0, val0⟩ := p
    simp only [List.map_cons, List.nodup_cons] at hnd
    rcases List.mem_cons.mp hmem with h | h
    · obtain ⟨hk, hv⟩ := Prod.mk.injEq .. ▸ h
      subst hk; subst hv
      have hnot : k ∉ rest.map Prod.fst := hnd.1
      rw [List.foldl_cons, get_foldl_add_not_mem rest _ k hnot,
        Values.get_add_self]
    · have hne : k ≠ k0 := by
        rintro rfl
        exact hnd.1 (List.mem_map.mpr ⟨(k, val), h, rfl⟩)
      rw [List.foldl_cons, ih _ hnd.2 h, Values.get_add_other _ _ _ _ hne]

/-! ### The every-key-has-a-value invariant and non-emptiness of Encode -/

/-- Every entry of the parameter multimap carries at least one value. -/
def ValsNeNil (v : Values) : Prop := ∀ p ∈ v, p.2 ≠ []

theorem valsNeNil_add (v : Values) (k val : String) (h : ValsNeNil v) :
    ValsNeNil (v.add k val) := by
  induction v with
  | nil =>
    intro p hp
    simp [Values.add] at hp
    simp [hp]
  | cons q rest ih =>
    obtain ⟨k0, vs0⟩ := q
    intro p hp
    by_cases h0 : k0 = k
    · simp [Values.add, h0] at hp
      rcases hp with hp | hp
      · simp [hp]
      · exact h p (List.mem_cons_of_mem _ hp)
    · simp only [Values.add, if_neg h0, List.mem_cons] at hp
      rcases hp with hp | hp
      · subst hp; exact h _ (List.mem_cons_self _ _)
      · exact ih (fun q hq => h q (List.mem_cons_of_mem _ hq)) p hp

theorem valsNeNil_apply (f : Field) (v : Values) (h : ValsNeNil v) :
    ValsNeNil (f.apply v) := by
  unfold Field.apply
  by_cases h1 : f.IsIncluded <;> by_cases h2 : f.IsExpanded <;>
    simp [h1, h2, valsNeNil_add, h]

theorem valsNeNil_foldl_apply (l : List (String × Field)) (v0 : Values)
    (h : ValsNeNil v0) :
    ValsNeNil (l.foldl (fun v p => p.2.apply v) v0) := by
  induction l generalizing v0 with
  | nil => exact h
  | cons p rest ih => exact ih _ (valsNeNil_apply p.2 v0 h)

theorem valsNeNil_foldl_add (l : List (String × String)) (v0 : Values)
    (h : ValsNeNil v0) :
    ValsNeNil (l.foldl (fun v p => v.add p.1 p.2) v0) := by
  induction l generalizing v0 with
  | nil => exact h
  | cons p rest ih => exact ih _ (valsNeNil_add v0 p.1 p.2 h)

theorem valsNeNil_queryParams (r : Request) : ValsNeNil r.QueryParams := by
  unfold Request.QueryParams
  exact valsNeNil_foldl_add _ _
    (valsNeNil_foldl_apply _ _ (by intro p hp; simp at hp))

theorem part_ne_empty (a b : String) : a ++ "=" ++ b ≠ "" := by
  intro hab
  have := congrArg String.data hab
  rw [String.data_append, String.data_append] at this
  simp at this

theorem joinAmp_cons_ne (s : String) (rest : List String) (h : s ≠ "") :
    joinAmp (s :: rest) ≠ "" := by
  cases rest with
  | nil => simpa [joinAmp] using h
  | cons t r =>
    simp only [joinAmp]
    intro hab
    have := congrArg String.data hab
    rw [String.data_append, String.data_append] at this
    simp at this

theorem encode_ne_empty (v : Values) (hne : v ≠ []) (hvals : ValsNeNil v) :
    v.encode ≠ "" := by
  unfold Values.encode
  have hperm := List.perm_insertionSort keyLE v
  cases hs : List.insertionSort keyLE v with
  | nil => exact absurd (hperm.symm.trans (hs ▸ List.Perm.refl _)).eq_nil hne
  | cons p rest =>
    have hpv : p ∈ v := hperm.mem_iff.mp (by rw [hs]; exact List.mem_cons_self _ _)
    cases hvl : p.2 with
    | nil => exact absurd hvl (hvals p hpv)
    | cons val vs =>
      rw [List.flatMap_cons, hvl, List.map_cons, List.cons_append]
      exact joinAmp_cons_ne _ _ (part_ne_empty _ _)

/-! ### Claim theorems -/

/-- C4: for every Request and Field f, after `Expand(f)` the field has
`IsExpanded = true` and `IsIncluded = false`, and it is stored in the
field map of the request under its name, exactly as `AddField` stores
it — expansion and explicit selection are mutually exclusive flags. -/
theorem C4_expand_flags_and_insertion (r : Request) (f : Field) :
    (r.Expand f).2.IsExpanded = true ∧ (r.Expand f).2.IsIncluded = false ∧
    mapLookup (r.Expand f).1.Fields f.Name = some (r.Expand f).2 ∧
    (r.Expand f).1 = r.AddField (r.Expand f).2 := by
  refine ⟨rfl, rfl, ?_, rfl⟩
  exact mapLookup_mapInsert_self r.Fields f.Name _

/-- C5: `WithFilter(fieldName, filter)` stores the value of the filter
under the key `fieldName__c` when the operator suffix `c` is non-empty,
and under the bare `fieldName` when it is empty. -/
theorem C5_withFilter_key (r : Request) (fieldName : String) (flt : Filter) :
    mapLookup (r.WithFilter fieldName flt).additionalFields
      (if flt.c ≠ "" then fieldName ++ "__" ++ flt.c else fieldName) =
      some flt.value ∧
    mapLookup ((NewRequest "e" "c" "").WithFilter "age"
      ⟨"gt", "30"⟩).additionalFields "age__gt" = some "30" := by
  constructor
  · by_cases h : flt.c ≠ ""
    · simpa [Request.WithFilter, h] using
        mapLookup_mapInsert_self r.additionalFields
          (fieldName ++ "__" ++ flt.c) flt.value
    · simpa [Request.WithFilter, h] using
        mapLookup_mapInsert_self r.additionalFields fieldName flt.value
  · rfl

/-- C6: `WithContext` with an absent (nil) context aborts: the Go
`panic("nil context")` is modelled as `Except.error "nil context"`; with
a present context it returns the same request with its cancellation
context replaced. -/
theorem C6_withContext_nil_panics (r : Request) :
    r.WithContext none = Except.error "nil context" ∧
    ∀ c, r.WithContext (some c) = Except.ok { r with ctx := c } :=
  ⟨rfl, fun _ => rfl⟩

/-- C7: adding two fields with the same name leaves exactly one entry for
that name in the field map of the request, holding the later field. -/
theorem C7_addField_last_write_wins (r : Request) (f g : Field)
    (hnd : (r.Fields.map Prod.fst).Nodup) (hname : g.Name = f.Name) :
    mapLookup ((r.AddField f).AddField g).Fields f.Name = some g ∧
    (((r.AddField f).AddField g).Fields.map Prod.fst).count f.Name = 1 := by
  constructor
  · rw [← hname]
    exact mapLookup_mapInsert_self _ _ _
  · rw [← hname]
    exact count_keys_mapInsert _ _ _
      (nodup_keys_mapInsert _ _ _ hnd)

/-- C7 witness: two fields named "n" on a fresh request leave one entry,
holding the later field. -/
theorem C7_addField_last_write_wins_witness :
    mapLookup (((NewRequest "e" "c" "").AddField ⟨"n", true, false⟩).AddField
      ⟨"n", false, true⟩).Fields "n" = some ⟨"n", false, true⟩ ∧
    ((((NewRequest "e" "c" "").AddField ⟨"n", true, false⟩).AddField
      ⟨"n", false, true⟩).Fields.map Prod.fst).count "n" = 1 :=
  C7_addField_last_write_wins (NewRequest "e" "c" "") ⟨"n", true, false⟩
    ⟨"n", false, true⟩ (by simp [NewRequest]) rfl

/-- C8: `OrderBy(f)` sets the auxiliary key "order" to the name of f, and
a second `OrderBy` overwrites it with the name of the later field. -/
theorem C8_orderBy_last_call_wins (r : Request) (f g : Field) :
    mapLookup (r.OrderBy f).additionalFields "order" = some f.Name ∧
    mapLookup ((r.OrderBy f).OrderBy g).additionalFields "order" =
      some g.Name :=
  ⟨mapLookup_mapInsert_self _ _ _, mapLookup_mapInsert_self _ _ _⟩

/-- C10: every builder operation (`AddField`, `Expand`, `OrderBy`,
`WithFilter`) leaves `Endpoint`, `Collection` and `ID` unchanged. -/
theorem C10_builders_preserve_url_components (r : Request) (f : Field)
    (name : String) (flt : Filter) :
    ((r.AddField f).Endpoint = r.Endpoint ∧
      (r.AddField f).Collection = r.Collection ∧
      (r.AddField f).ID = r.ID) ∧
    ((r.Expand f).1.Endpoint = r.Endpoint ∧
      (r.Expand f).1.Collection = r.Collection ∧
      (r.Expand f).1.ID = r.ID) ∧
    ((r.OrderBy f).Endpoint = r.Endpoint ∧
      (r.OrderBy f).Collection = r.Collection ∧
      (r.OrderBy f).ID = r.ID) ∧
    ((r.WithFilter name flt).Endpoint = r.Endpoint ∧
      (r.WithFilter name flt).Collection = r.Collection ∧
      (r.WithFilter name flt).ID = r.ID) :=
  ⟨⟨rfl, rfl, rfl⟩, ⟨rfl, rfl, rfl⟩, ⟨rfl, rfl, rfl⟩, ⟨rfl, rfl, rfl⟩⟩

/-- The parameters contributed by the fields alone: the first loop of
`QueryParams`, before any auxiliary parameter is added. -/
def fieldContributions (r : Request) : Values :=
  r.Fields.foldl (fun v p => p.2.apply v) []

/-- C1 counterexample: on a request whose field "a" contributes the
parameter key "fields" and whose auxiliary map also holds key "fields"
(value "b"), `QueryParams` maps "fields" to the two values ["a", "b"]:
the auxiliary value is added alongside the field-contributed one, it
does not replace it, and the key does not map to exactly one value. -/
theorem C1_counterexample :
    (((NewRequest "http://e/" "coll" "").AddField ⟨"a", true, false⟩
      |>.WithFilter "fields" ⟨"", "b"⟩).QueryParams).get "fields" =
      ["a", "b"] := by decide

/-- C1 amended: each auxiliary parameter is appended after the
field-contributed values of its key (`url.Values.Add`, not `Set`): for a
request whose auxiliary keys are distinct, an auxiliary entry (k, val)
yields value list `fieldContributions.get k ++ [val]` for k, so the two
coexist on a collision, and k maps to exactly one value only when no
field contributed to it. -/
theorem C1_aux_appended_after_fields (r : Request) (k val : String)
    (hnd : (r.additionalFields.map Prod.fst).Nodup)
    (hmem : (k, val) ∈ r.additionalFields) :
    (r.QueryParams).get k = (fieldContributions r).get k ++ [val] := by
  have hq : r.QueryParams =
      r.additionalFields.foldl (fun v p => v.add p.1 p.2)
        (fieldContributions r) := rfl
  rw [hq]
  exact get_foldl_add_mem _ _ _ _ hnd hmem

/-- C1 witness: the amended statement at the collision request. -/
theorem C1_aux_appended_after_fields_witness :
    (((NewRequest "http://e/" "coll" "").AddField ⟨"x", true, false⟩
      |>.WithFilter "fields" ⟨"", "y"⟩).QueryParams).get "fields" =
      (fieldContributions ((NewRequest "http://e/" "coll" "").AddField
        ⟨"x", true, false⟩ |>.WithFilter "fields" ⟨"", "y"⟩)).get "fields"
        ++ ["y"] :=
  C1_aux_appended_after_fields _ "fields" "y" (by decide) (by decide)

/-- The URL shape exactly as the specification words it (refinement
target for C3): `endpoint + collection + "/"`, then `id + "/"` exactly
when the id is non-empty, then `"?"` plus the percent-encoded query
string exactly when the merged parameter set is non-empty. -/
def specRenderURL (r : Request) : String :=
  r.Endpoint ++ r.Collection ++ "/" ++
    (if r.ID = "" then "" else r.ID ++ "/") ++
    (if r.QueryParams = [] then "" else "?" ++ r.QueryParams.encode)

/-- C3: `ToURL` produces exactly the specified shape, and a request with
no fields and no auxiliary parameters has an empty query string; when
additionally the id is empty the URL is `endpoint + collection + "/"`. -/
theorem C3_toURL_shape (r : Request) :
    r.ToURL = specRenderURL r ∧
    (r.Fields = [] → r.additionalFields = [] →
      r.QueryParams.encode = "" ∧
      (r.ID = "" → r.ToURL = r.Endpoint ++ r.Collection ++ "/")) := by
  have hmain : r.ToURL = specRenderURL r := by
    unfold Request.ToURL specRenderURL
    by_cases hq : r.QueryParams = []
    · have henc : r.QueryParams.encode = "" := by rw [hq]; rfl
      rw [henc]
      simp only [ne_eq, not_true_eq_false, if_false, if_pos hq,
        String.append_empty]
      by_cases hid : r.ID = ""
      · simp [hid, String.append_empty]
      · simp [hid, String.append_assoc]
    · have henc := encode_ne_empty r.QueryParams hq (valsNeNil_queryParams r)
      simp only [ne_eq, henc, not_false_eq_true, if_true, if_neg hq]
      by_cases hid : r.ID = ""
      · simp [hid, String.append_assoc]
        rw [show ("/?" : String) = "/" ++ "?" from rfl, String.append_assoc]
      · simp [hid, String.append_assoc]
        rw [show ("/?" : String) = "/" ++ "?" from rfl, String.append_assoc]
  refine ⟨hmain, fun hF hA => ?_⟩
  have hq : r.QueryParams = [] := by
    simp [Request.QueryParams, hF, hA]
  have henc : r.QueryParams.encode = "" := by rw [hq]; rfl
  refine ⟨henc, fun hid => ?_⟩
  rw [hmain]
  unfold specRenderURL
  rw [if_pos hq, if_pos hid, String.append_empty, String.append_empty]

/-- C3 witness: a fresh request with no fields, no auxiliary parameters
and no id renders to `endpoint ++ collection ++ "/"`. -/
theorem C3_toURL_shape_witness :
    (NewRequest "http://e/" "coll" "").ToURL = "http://e/" ++ "coll" ++ "/" :=
  ((C3_toURL_shape (NewRequest "http://e/" "coll" "")).2 rfl rfl).2 rfl

/-- First request of the C9 counterexample: fields "a" then "b". -/
def r9a : Request :=
  (NewRequest "http://e/" "coll" "").AddField ⟨"a", true, false⟩
    |>.AddField ⟨"b", true, false⟩

/-- Second request of the C9 counterexample: the same field map, iterated
in the other order ("b" then "a"). -/
def r9b : Request :=
  (NewRequest "http://e/" "coll" "").AddField ⟨"b", true, false⟩
    |>.AddField ⟨"a", true, false⟩

/-- C9 counterexample: two requests with equal endpoint, collection, id,
auxiliary map and equal field maps (the field lists are permutations of
one another, keys distinct) render different URL strings, because the
order of the two values under the repeated key "fields" follows the map
iteration order. -/
theorem C9_counterexample :
    r9a.Endpoint = r9b.Endpoint ∧ r9a.Collection = r9b.Collection ∧
    r9a.ID = r9b.ID ∧ r9a.additionalFields = r9b.additionalFields ∧
    r9a.Fields.Perm r9b.Fields ∧ r9a.ToURL ≠ r9b.ToURL := by
  refine ⟨rfl, rfl, rfl, rfl, ?_, by decide⟩
  exact List.Perm.swap _ _ _

/-- C9 amended: the encoded query string is rendered from an arrangement
of the parameter set whose keys are in nondecreasing lexicographic
order; the rendered URL is a fixed function of the request state
together with the field-map iteration order (which fixes the value order
within a repeated key). -/
theorem C9_encode_sorted_keys (r : Request) :
    ∃ sorted : Values, sorted.Perm r.QueryParams ∧
      List.Sorted keyLE sorted ∧
      r.QueryParams.encode = joinAmp (sorted.flatMap
        (fun p => p.2.map
          (fun x => queryEscape p.1 ++ "=" ++ queryEscape x))) :=
  ⟨List.insertionSort keyLE r.QueryParams,
    List.perm_insertionSort keyLE r.QueryParams,
    List.sorted_insertionSort keyLE r.QueryParams, rfl⟩

/-- C2: when the transport yields a response with a status outside
[200, 300), `Execute` returns an error whose message is exactly the body
text when the body read succeeds, and an error wrapping the read
failure (a strictly different message from the read-failure text) when
it fails; in both cases the destination value is returned unmodified. -/
theorem C2_non2xx_error_is_body (α : Type) (r : Request)
    (doGet : Ctx → String → Except String Response)
    (decode : String → α → Except String Unit × α) (v : α)
    (res : Response) (hres : doGet r.ctx r.ToURL = Except.ok res)
    (hstatus : res.StatusCode < 200 ∨ 300 ≤ res.StatusCode) :
    (∀ m, res.Body = Except.ok m →
      r.Execute doGet decode v = (Except.error m, v)) ∧
    (∀ e, res.Body = Except.error e →
      r.Execute doGet decode v =
        (Except.error ("Unable to read error message from server: " ++ e),
          v) ∧
      "Unable to read error message from server: " ++ e ≠ e) := by
  have hexec : r.Execute doGet decode v =
      (if res.StatusCode < 200 ∨ 300 ≤ res.StatusCode then
        match res.Body with
        | Except.error e =>
          (Except.error ("Unable to read error message from server: " ++ e),
            v)
        | Except.ok message => (Except.error message, v)
      else
        match res.Body with
        | Except.error e => (Except.error e, v)
        | Except.ok body => decode body v) := by
    unfold Request.Execute
    rw [hres]
  constructor
  · intro m hm
    rw [hexec, if_pos hstatus, hm]
  · intro e he
    refine ⟨by rw [hexec, if_pos hstatus, he], fun heq => ?_⟩
    have hlen := congrArg String.length heq
    rw [String.length_append] at hlen
    have hpos :
        0 < ("Unable to read error message from server: " : String).length :=
      by decide
    omega

/-- C2 witness: a 404 response with body "not found" makes `Execute`
fail with exactly "not found" and leave the destination at its old
value. -/
theorem C2_witness_404_not_found :
    (NewRequest "http://e/" "coll" "").Execute
      (fun _ _ => Except.ok ⟨404, Except.ok "not found"⟩)
      (fun _ (n : Nat) => (Except.ok (), n)) 0 =
      (Except.error "not found", 0) :=
  (C2_non2xx_error_is_body Nat (NewRequest "http://e/" "coll" "")
    (fun _ _ => Except.ok ⟨404, Except.ok "not found"⟩)
    (fun _ (n : Nat) => (Except.ok (), n)) 0
    ⟨404, Except.ok "not found"⟩ rfl (by decide)).1 "not found" rfl

end Golark
